import Mathlib

/-!
Verification of the consensus core of a Nakamoto-style blockchain node
(block tree with finalization and balance accounting in
`lib_chain/src/block.rs`, transaction pool in `lib_tx_pool/src/pool.rs`).

The Rust code is shallowly embedded:

* `HashMap<String, V>` is modelled as an association list `List (String × V)`
  with lookup/insert/modify on the first occurrence of a key;
  `HashSet<String>` as a `List String` used through membership.
* SHA-256 (`sha2` crate), the serde JSON serialization that feeds it inside
  `Transaction::gen_hash`, and the RSA/base64/PEM machinery inside
  `Transaction::verify_sig` are external-crate functionality, not code of this
  repository; they are abstracted into a `Crypto` parameter record.  The one
  concretely modelled part of `verify_sig` is the byte slice
  `&self.sender[..64]`, which panics in Rust when the sender string is shorter
  than 64 bytes -- this is observable control flow of the repository's code.
* A Rust panic (`unwrap` on `None`, out-of-bounds slice, explicit `panic!` --
  spelled out here only in comments) is modelled as `none` / a `crash`
  constructor; a non-terminating loop is also mapped to `crash` via fuel.
* `i64` amounts are modelled as `Int`; `parse::<i64>` checks the i64 range
  and rejects non-numeric input exactly as Rust's `str::parse` does
  (sign handling included).
-/

/-- `Transaction` struct of `block.rs` (sender, receiver, message, sig). -/
structure Transaction where
  sender : String
  receiver : String
  message : String
  sig : String
deriving DecidableEq

/-- `MerkleTree` struct of `block.rs`: a list of levels of hashes. -/
structure MerkleTree where
  hashes : List (List String)
deriving DecidableEq

/-- `Transactions` struct of `block.rs`. -/
structure Transactions where
  merkle_tree : MerkleTree
  transactions : List Transaction
deriving DecidableEq

/-- `BlockNodeHeader` struct of `block.rs`. -/
structure BlockNodeHeader where
  parent : String
  merkle_root : String
  timestamp : Nat
  block_id : String
  nonce : String
  reward_receiver : String
deriving DecidableEq

/-- `BlockNode` struct of `block.rs`. -/
structure BlockNode where
  header : BlockNodeHeader
  transactions_block : Transactions
deriving DecidableEq

/-- The abstracted external-crate functionality (see the file header):
`sha256hex s` is the lowercase-hex SHA-256 digest of the string `s`;
`gen_hash tx` is `Transaction::gen_hash` (SHA-256 of the serde-JSON
serialization of the transaction); `rsaCheck tx` is the RSA part of
`Transaction::verify_sig` after the sender slice: `some b` when the PEM /
base64 / signature parsing succeeds and verification returns `b`, `none`
when one of the `unwrap`s in that parsing chain panics. -/
structure Crypto where
  sha256hex : String → String
  gen_hash : Transaction → String
  rsaCheck : Transaction → Option Bool

/-- `HashMap` lookup: first occurrence of the key in the association list. -/
def hmLookup {α : Type} : List (String × α) → String → Option α
  | [], _ => none
  | (k, v) :: rest, key => if k = key then some v else hmLookup rest key

/-- `HashMap::insert`: replace the first occurrence or append a fresh entry. -/
def hmInsert {α : Type} : List (String × α) → String → α → List (String × α)
  | [], k, v => [(k, v)]
  | (k', v') :: rest, k, v =>
    if k' = k then (k, v) :: rest else (k', v') :: hmInsert rest k v

/-- `Entry::and_modify`: apply `f` to the value at the first occurrence. -/
def hmModify {α : Type} : List (String × α) → String → (α → α) → List (String × α)
  | [], _, _ => []
  | (k', v) :: rest, k, f =>
    if k' = k then (k', f v) :: rest else (k', v) :: hmModify rest k f

/-- `HashMap::remove`: drop every entry with the given key (a real `HashMap`
has at most one). -/
def hmRemove {α : Type} (m : List (String × α)) (k : String) : List (String × α) :=
  m.filter (fun kv => kv.1 ≠ k)

/-- `HashSet::insert`. -/
def hsInsert (s : List String) (x : String) : List String :=
  if x ∈ s then s else s ++ [x]

/-- Sum of the values of a balance map (`finalized_balance_map.values().sum()`
in the spec's balance law). -/
def valuesSum (m : List (String × Int)) : Int :=
  (m.map Prod.snd).sum

/-- Worker for `splitChar`: split a character list at every separator. -/
def splitCharAux (c : Char) : List Char → List Char → List String
  | [], acc => [String.mk acc.reverse]
  | x :: xs, acc =>
    if x = c then String.mk acc.reverse :: splitCharAux c xs []
    else splitCharAux c xs (x :: acc)

/-- Rust's `str::split(c)` for a one-character separator: `"a$b"` gives
`["a", "b"]`, `""` gives `[""]`, separators at the ends yield empty pieces. -/
def splitChar (c : Char) (s : String) : List String :=
  splitCharAux c s.toList []

/-- Rust's `str::starts_with`. -/
def strStartsWith (s pre : String) : Bool :=
  pre.toList.isPrefixOf s.toList

/-- Digit-list accumulator of `parseI64`. -/
def parseI64Core (sgn : Int) (ds : List Char) : Option Int :=
  if ds.isEmpty || !(ds.all Char.isDigit) then none
  else
    let v : Int := sgn * Int.ofNat (ds.foldl (fun a c => a * 10 + (c.toNat - 48)) 0)
    if v < -(9223372036854775808 : Int) ∨ (9223372036854775808 : Int) ≤ v then none
    else some v

/-- Rust's `str::parse::<i64>`: optional sign, decimal digits, i64 range. -/
def parseI64 (s : String) : Option Int :=
  match s.toList with
  | '-' :: ds => parseI64Core (-1) ds
  | '+' :: ds => parseI64Core 1 ds
  | ds => parseI64Core 1 ds

/-- Amount extraction of `BlockTree::add_block` (block.rs:324-331):
`message.split('$').nth(1).unwrap().split(' ').next().unwrap().parse::<i64>()`.
`none` models the panic of `.nth(1).unwrap()` (no `$` in the message) or of
`.parse().unwrap()`. `split(' ').next()` always yields a (possibly empty)
first piece, so it cannot panic. -/
def tx_amount (tx : Transaction) : Option Int :=
  match (splitChar '$' tx.message)[1]? with
  | none => none
  | some rest => parseI64 ((splitChar ' ' rest).headD "")

/-- `Transaction::verify_sig` (block.rs:148-194). The slice
`&self.sender[..64]` panics when the sender has fewer than 64 bytes (`none`);
the rest of the function (PEM reconstruction, base64 decoding, RSA
verification) is the abstract `rsaCheck`. -/
def verify_sig (C : Crypto) (tx : Transaction) : Option Bool :=
  if tx.sender.length < 64 then none
  else C.rsaCheck tx

/-- `iter().all(|tx| tx.verify_sig())` with short-circuiting; `none` when a
`verify_sig` call panics before a `false` is found. -/
def verify_all (C : Crypto) : List Transaction → Option Bool
  | [] => some true
  | tx :: rest =>
    match verify_sig C tx with
    | none => none
    | some false => some false
    | some true => verify_all C rest

/-- `serde_json::to_string` of the `Puzzle` struct `{parent, merkle_root,
reward_receiver}` (field order as declared). -/
def puzzle_json (parent merkle_root reward_receiver : String) : String :=
  "\x7b\"parent\":\"" ++ parent ++ "\",\"merkle_root\":\"" ++ merkle_root ++
    "\",\"reward_receiver\":\"" ++ reward_receiver ++ "\"\x7d"

/-- A string of `n` `'0'` characters ("0".repeat(leading_zero_len)). -/
def leadingZeros (n : Nat) : String :=
  String.mk (List.replicate n '0')

/-- `BlockNode::validate_block` (block.rs:554-612). Returns
`some (valid?, recomputed id)` as the Rust function does; `none` models a
panic (a transaction's `verify_sig` panicking, or the
`merkle_tree.hashes.last().unwrap()[0]` indexing on an empty level list). -/
def validate_block (C : Crypto) (b : BlockNode) (leading_zero_len : Nat) :
    Option (Bool × String) :=
  let block_id := b.header.block_id
  if !(strStartsWith block_id (leadingZeros leading_zero_len)) then some (false, block_id)
  else
    let serialized := puzzle_json b.header.parent b.header.merkle_root b.header.reward_receiver
    let res := C.sha256hex (b.header.nonce ++ serialized)
    if res ≠ block_id then some (false, res)
    else
      match verify_all C b.transactions_block.transactions with
      | none => none
      | some false => some (false, block_id)
      | some true =>
        match b.transactions_block.merkle_tree.hashes.getLast? with
        | none => none
        | some lvl =>
          match lvl.head? with
          | none => none
          | some root =>
            if root ≠ b.header.merkle_root then some (false, block_id)
            else some (true, block_id)

/-- One pass of the pairing loop of `create_merkle_tree` (block.rs:70-84):
`for i in (0..len-1).step_by(2)` hashes `l[i] ++ l[i+1]`; on an odd-length
list the final element is left unpaired (it was already carried over). -/
def pairUp (H : String → String) : List String → List String
  | a :: b :: rest => H (a ++ b) :: pairUp H rest
  | _ => []

/-- One level step of `create_merkle_tree` (block.rs:62-86): on an odd count
the duplicate of the last hash is pushed *first*, then the pairs follow. -/
def nextLevel (H : String → String) (l : List String) : List String :=
  (if l.length % 2 ≠ 0 then [(l.getLast?).getD ""] else []) ++ pairUp H l

/-- The `while hashes.last().unwrap().len() > 1` loop of `create_merkle_tree`,
with fuel (each iteration strictly shrinks the level, so `initial length`
fuel always suffices; running out of fuel is unreachable for the actual
call). Returns all levels, first level first. -/
def buildLevelsF (H : String → String) : Nat → List String → List (List String)
  | 0, l => [l]
  | fuel + 1, l =>
    if 1 < l.length then l :: buildLevelsF H fuel (nextLevel H l)
    else [l]

/-- `MerkleTree::create_merkle_tree` (block.rs:47-95). `none` models the
explicit `panic!` on an empty transaction list and the (unreachable)
`hashes.last().unwrap()[0]` root extraction failing. -/
def create_merkle_tree (C : Crypto) (txs : List Transaction) :
    Option (String × MerkleTree) :=
  if txs.isEmpty then none
  else
    let lvls := buildLevelsF C.sha256hex txs.length (txs.map C.gen_hash)
    match lvls.getLast? with
    | none => none
    | some lvl =>
      match lvl.head? with
      | none => none
      | some root => some (root, { hashes := lvls })

/-- Decidable check that a level list is chained by `nextLevel`: every level
before the last has more than one hash and is followed by its `nextLevel`. -/
def levelsChained (H : String → String) : List (List String) → Bool
  | l1 :: l2 :: rest =>
    decide (1 < l1.length) && (l2 == nextLevel H l1) && levelsChained H (l2 :: rest)
  | _ => true

/-- `BlockTree` struct of `block.rs` (block.rs:199-220). -/
structure BlockTree where
  all_blocks : List (String × BlockNode)
  children_map : List (String × List String)
  block_depth : List (String × Nat)
  root_id : String
  working_block_id : String
  orphans : List (String × BlockNode)
  finalized_block_id : String
  finalized_balance_map : List (String × Int)
  finalized_tx_ids : List String
deriving DecidableEq

/-- The hard-coded genesis receiver address (block.rs:533). -/
def ALICE : String :=
  "MDgCMQCqrJ1yIJ7cDQIdTuS+4CkKn/tQPN7bZFbbGCBhvjQxs71f6Vu+sD9eh8JGpfiZSckCAwEAAQ=="

/-- The single synthetic transaction of the genesis block (block.rs:531-537). -/
def genesisTx : Transaction :=
  { sender := "GENESIS", receiver := ALICE
    message := "SEND $299792458", sig := "GENESIS" }

/-- `BlockNode::genesis_block` (block.rs:520-545). -/
def genesis_block : BlockNode :=
  { header := { parent := "0", merkle_root := "0", timestamp := 0,
                block_id := "0", nonce := "0", reward_receiver := "GENESIS" }
    transactions_block := { merkle_tree := { hashes := [] }, transactions := [genesisTx] } }

/-- Amount parsing of `BlockTree::new` (block.rs:242-245):
`tx.message.split(" ")[1].trim_start_matches('$').parse::<i64>()`; `none`
models the indexing or parse panic. -/
def genesis_amount (tx : Transaction) : Option Int :=
  match (splitChar ' ' tx.message)[1]? with
  | none => none
  | some p => parseI64 (String.mk (p.toList.dropWhile (fun c => c == '$')))

/-- `BlockTree::new` (block.rs:224-250); `none` models a panic while seeding
the balance map from the genesis transactions (unreachable for the fixed
genesis block). -/
def BlockTree.new : Option BlockTree :=
  (genesis_block.transactions_block.transactions.foldlM
      (fun m tx => (genesis_amount tx).map (fun a => hmInsert m tx.receiver a))
      ([] : List (String × Int))).map
    (fun bal =>
      { all_blocks := [("0", genesis_block)]
        children_map := []
        block_depth := [("0", 0)]
        root_id := "0"
        working_block_id := "0"
        orphans := []
        finalized_block_id := "0"
        finalized_balance_map := bal
        finalized_tx_ids := [] })

/-- The genesis-only tree produced by `BlockTree::new` (fallback value is
never used: `BlockTree.new` succeeds, see `blockTree_new_eq`). -/
def initTree : BlockTree :=
  (BlockTree.new).getD
    { all_blocks := [], children_map := [], block_depth := [], root_id := ""
      working_block_id := "", orphans := [], finalized_block_id := ""
      finalized_balance_map := [], finalized_tx_ids := [] }

/-- Ancestor transaction-id collection of `add_block` (block.rs:298-306):
walk parent links from the given id while it differs from `"0"`, collecting
`gen_hash` of every transaction met; the genesis block terminates the walk
*before* its transactions are collected. `none` models the
`all_blocks.get(..).unwrap()` panic on a missing ancestor, or (via fuel
exhaustion, impossible in a parent-acyclic tree) a non-terminating walk. -/
def collect_ancestor_tx_ids (C : Crypto) (all_blocks : List (String × BlockNode)) :
    Nat → String → List String → Option (List String)
  | 0, a, acc => if a = "0" then some acc else none
  | fuel + 1, a, acc =>
    if a = "0" then some acc
    else
      match hmLookup all_blocks a with
      | none => none
      | some blk =>
        collect_ancestor_tx_ids C all_blocks fuel blk.header.parent
          (acc ++ blk.transactions_block.transactions.map C.gen_hash)

/-- Result of replaying a block's transactions over a balance map. -/
inductive TxsResult where
  | crash : TxsResult
  | fail : String → TxsResult
  | ok : List (String × Int) → TxsResult
deriving DecidableEq

/-- The balance-transfer loop of `add_block` (block.rs:320-357): per
transaction, parse the amount, require the sender to exist with at least that
balance, debit the sender, credit (or create) the receiver. -/
def apply_txs (bal : List (String × Int)) : List Transaction → TxsResult
  | [] => .ok bal
  | tx :: rest =>
    match tx_amount tx with
    | none => .crash
    | some amount =>
      match hmLookup bal tx.sender with
      | none => .fail ("Sender " ++ tx.sender ++ " does not have enough balance to pay for transaction.")
      | some s =>
        if s < amount then
          .fail ("Sender " ++ tx.sender ++ " does not have enough balance to pay for transaction.")
        else
          let bal1 := hmModify bal tx.sender (fun e => e - amount)
          let bal2 :=
            if (hmLookup bal1 tx.receiver).isSome then
              hmModify bal1 tx.receiver (fun e => e + amount)
            else hmInsert bal1 tx.receiver amount
          apply_txs bal2 rest

/-- Outcome of the non-recursive part of one `add_block` call. -/
inductive BodyResult where
  | crash : BodyResult
  | fail : String → BodyResult
  | parked : BlockTree → BodyResult
  | admitted : BlockTree → List String → BodyResult
deriving DecidableEq

/-- The body of `BlockTree::add_block` (block.rs:271-398) up to but excluding
the orphan-promotion loop: duplicate-id rejection, self-validation, orphan
parking, ancestor-duplicate rejection, balance replay, and all state updates
of a successful admission, in source order. `admitted st ids` carries the
updated tree plus the ids of the orphans whose parent is the new block
(block.rs:401-406); every `Err` return in the source happens before any
mutation of `self`, which is why `fail` carries no tree. -/
def add_body (C : Crypto) (lz : Nat) (st : BlockTree) (block : BlockNode) : BodyResult :=
  let block_id := block.header.block_id
  let parent_id := block.header.parent
  if (hmLookup st.all_blocks block_id).isSome || (hmLookup st.orphans block_id).isSome then
    .fail "Block already exists in the block tree or orphan map."
  else
    match validate_block C block lz with
    | none => .crash
    | some vr =>
      if vr ≠ (true, block_id) then .fail "Block is not valid."
      else
        match hmLookup st.all_blocks parent_id with
        | none => .parked { st with orphans := hmInsert st.orphans block_id block }
        | some _ =>
          match collect_ancestor_tx_ids C st.all_blocks (st.all_blocks.length + 1) parent_id [] with
          | none => .crash
          | some ancestor_tx_ids =>
            if block.transactions_block.transactions.any
                (fun tx => ancestor_tx_ids.contains (C.gen_hash tx)) then
              .fail "Transactions in block are duplicates with ancestor blocks."
            else
              match apply_txs st.finalized_balance_map block.transactions_block.transactions with
              | .crash => .crash
              | .fail e => .fail e
              | .ok balance_map =>
                let st1 : BlockTree :=
                  { st with all_blocks := hmInsert st.all_blocks block_id block
                            working_block_id := block_id
                            finalized_block_id := parent_id }
                match hmLookup st1.all_blocks st1.finalized_block_id with
                | none => .crash
                | some fb =>
                  let fin_tx_ids := fb.transactions_block.transactions.foldl
                    (fun s tx => hsInsert s (C.gen_hash tx)) ([] : List String)
                  let balance_map2 :=
                    if (hmLookup balance_map block.header.reward_receiver).isSome then
                      hmModify balance_map block.header.reward_receiver (fun e => e + 10)
                    else hmInsert balance_map block.header.reward_receiver 10
                  let children := (hmLookup st1.children_map parent_id).getD []
                  let st2 : BlockTree :=
                    { st1 with finalized_tx_ids := fin_tx_ids
                               children_map := hmInsert st1.children_map parent_id (children ++ [block_id])
                               all_blocks := hmModify st1.all_blocks block_id
                                 (fun bn => { bn with header := { bn.header with parent := parent_id } })
                               finalized_balance_map := balance_map2 }
                  match hmLookup st.block_depth parent_id with
                  | none => .crash
                  | some d =>
                    let st3 : BlockTree :=
                      { st2 with block_depth := hmInsert st2.block_depth block_id (d + 1) }
                    let ids := (st3.orphans.filter
                      (fun kv => kv.2.header.parent == block_id)).map Prod.fst
                    .admitted st3 ids

/-- Result of a (possibly recursive) `add_block` call. `fail e st` is
`Err(e)` returned with the tree in state `st` (the Rust method mutates
`self` in place, so an error propagated out of an orphan promotion leaves
earlier mutations behind); `crash` is a Rust panic (or, via fuel, a
non-terminating walk); `out` is fuel exhaustion of the model. -/
inductive AddResult where
  | crash : AddResult
  | out : AddResult
  | fail : String → BlockTree → AddResult
  | ok : BlockTree → AddResult
deriving DecidableEq

/-- A pending piece of `add_block` work: admit a block, or promote a list of
orphan ids collected for a just-admitted block. -/
inductive Job where
  | add : BlockNode → Job
  | promote : List String → Job

/-- `BlockTree::add_block` with its recursive orphan promotion
(block.rs:271-425), driven by fuel. `promote` removes each collected orphan
from the orphan map (`orphans.remove(..).unwrap()`, panic when absent) and
re-enters `add` on it, propagating the first error (`?`). -/
def addBlockRun (C : Crypto) (lz : Nat) : Nat → BlockTree → Job → AddResult
  | 0, _, _ => .out
  | fuel + 1, st, .add b =>
    match add_body C lz st b with
    | .crash => .crash
    | .fail e => .fail e st
    | .parked st' => .ok st'
    | .admitted st' ids => addBlockRun C lz fuel st' (.promote ids)
  | _ + 1, st, .promote [] => .ok st
  | fuel + 1, st, .promote (oid :: rest) =>
    match hmLookup st.orphans oid with
    | none => .crash
    | some ob =>
      let st' : BlockTree := { st with orphans := hmRemove st.orphans oid }
      match addBlockRun C lz fuel st' (.add ob) with
      | .ok st'' => addBlockRun C lz fuel st'' (.promote rest)
      | r => r

/-- `BlockTree::add_block` entry point. -/
def add_block (C : Crypto) (fuel : Nat) (st : BlockTree) (block : BlockNode)
    (leading_zero_len : Nat) : AddResult :=
  addBlockRun C leading_zero_len fuel st (.add block)

/-- `BlockTree::get_block` (block.rs:428-437): scan the map's values for one
whose header carries the requested id. -/
def get_block (st : BlockTree) (block_id : String) : Option BlockNode :=
  (st.all_blocks.find? (fun kv => kv.2.header.block_id == block_id)).map Prod.snd

/-- `BlockTree::get_finalized_blocks_since` (block.rs:442-453): starting from
`since_block_id`, push the block and follow its parent link until the id
equals `finalized_block_id`, with fuel. `none` models the
`get_block(..).unwrap()` panic or (fuel exhaustion at every fuel) a
non-terminating walk. -/
def get_finalized_blocks_since (st : BlockTree) : Nat → String → Option (List BlockNode)
  | 0, bid => if bid = st.finalized_block_id then some [] else none
  | fuel + 1, bid =>
    if bid = st.finalized_block_id then some []
    else
      match get_block st bid with
      | none => none
      | some blk =>
        (get_finalized_blocks_since st fuel blk.header.parent).map (fun l => blk :: l)

/-- `TxPool` struct of `pool.rs` (pool.rs:21-30). -/
structure TxPool where
  pool_tx_ids : List String
  pool_tx_map : List (String × Transaction)
  removed_tx_ids : List String
  last_finalized_block_id : String
deriving DecidableEq

/-- `MAX_TX_POOL` (pool.rs:17). -/
def MAX_TX_POOL : Nat := 10000

/-- `TxPool::new` (pool.rs:34-41). -/
def TxPool.new : TxPool :=
  { pool_tx_ids := [], pool_tx_map := [], removed_tx_ids := []
    last_finalized_block_id := "0" }

/-- `TxPool::add_tx` (pool.rs:49-75). `none` models the panic of
`tx.verify_sig()` on a malformed transaction (e.g. a sender shorter than 64
bytes); the duplicate/removed and capacity checks run before it. -/
def add_tx (C : Crypto) (p : TxPool) (tx : Transaction) : Option (Bool × TxPool) :=
  if (hmLookup p.pool_tx_map (C.gen_hash tx)).isSome
      || p.removed_tx_ids.contains (C.gen_hash tx) then
    some (false, p)
  else if MAX_TX_POOL ≤ p.pool_tx_ids.length then some (false, p)
  else
    match verify_sig C tx with
    | none => none
    | some false => some (false, p)
    | some true =>
      some (true, { p with pool_tx_ids := p.pool_tx_ids ++ [C.gen_hash tx]
                           pool_tx_map := hmInsert p.pool_tx_map (C.gen_hash tx) tx })

/-- `TxPool::del_tx` (pool.rs:80-103): if present, remove from the map and
from every position of the ordered id list and record the id as removed;
otherwise only record it as removed. -/
def del_tx (p : TxPool) (tx_id : String) : TxPool :=
  match hmLookup p.pool_tx_map tx_id with
  | some _ =>
    { p with pool_tx_map := hmRemove p.pool_tx_map tx_id
             removed_tx_ids := hsInsert p.removed_tx_ids tx_id
             pool_tx_ids := p.pool_tx_ids.filter (fun i => i ≠ tx_id) }
  | none => { p with removed_tx_ids := hsInsert p.removed_tx_ids tx_id }

/-- `TxPool::remove_txs_from_finalized_blocks` (pool.rs:133-142): delete
every transaction of every given block, then set `last_finalized_block_id`
to the id of the last block; `none` models the
`finalized_blocks.last().unwrap()` panic on an empty list. -/
def remove_txs_from_finalized_blocks (C : Crypto) (p : TxPool)
    (finalized_blocks : List BlockNode) : Option TxPool :=
  let p1 := finalized_blocks.foldl
    (fun acc blk => blk.transactions_block.transactions.foldl
      (fun a tx => del_tx a (C.gen_hash tx)) acc) p
  match finalized_blocks.getLast? with
  | none => none
  | some lb => some { p1 with last_finalized_block_id := lb.header.block_id }

/-- Pool well-formedness: every id in the ordered list has a map entry
(holds for every pool built through `add_tx`/`del_tx` from `TxPool::new`). -/
def poolConsistent (p : TxPool) : Bool :=
  p.pool_tx_ids.all (fun i => (hmLookup p.pool_tx_map i).isSome)

/-- A transaction id is fully deleted from the pool and recorded as removed. -/
def TxGone (p : TxPool) (id : String) : Prop :=
  id ∈ p.removed_tx_ids ∧ hmLookup p.pool_tx_map id = none ∧ id ∉ p.pool_tx_ids

/-- The state carried by an `ok` or `fail` result (the tree the Rust caller
observes after the call returns `Ok(())` or `Err(e)`). -/
def resultState : AddResult → Option BlockTree
  | .ok t => some t
  | .fail _ t => some t
  | _ => none

/-- The core (non-orphan) fields two trees share when a call only changed the
orphan map. -/
def SameCore (st t : BlockTree) : Prop :=
  t.all_blocks = st.all_blocks ∧ t.block_depth = st.block_depth ∧
  t.working_block_id = st.working_block_id ∧ t.finalized_block_id = st.finalized_block_id

/-- The tip/finalization shape `add_block` establishes on every admission:
the working block is in the tree, the finalized block is its parent, and
their recorded depths differ by exactly one. -/
def TipShape (t : BlockTree) : Prop :=
  ∃ bn d, hmLookup t.all_blocks t.working_block_id = some bn ∧
    t.finalized_block_id = bn.header.parent ∧
    hmLookup t.block_depth t.working_block_id = some (d + 1) ∧
    hmLookup t.block_depth t.finalized_block_id = some d

/-- Mock instantiation of the abstract crypto used for concrete runs: the
"digest" of a string is its prefix up to the first `"|"`, so a block whose
nonce is `id ++ "|"` puzzle-hashes exactly to `id`; the transaction "hash"
is the field concatenation (injective on `#`-free fields); every
RSA verification succeeds. -/
def mockSha (s : String) : String := (splitChar '|' s).headD ""

/-- Mock transaction digest: field concatenation. -/
def mockGenHash (tx : Transaction) : String :=
  tx.sender ++ "#" ++ tx.receiver ++ "#" ++ tx.message ++ "#" ++ tx.sig

/-- The mock crypto record. -/
def mockCrypto : Crypto :=
  { sha256hex := mockSha, gen_hash := mockGenHash, rsaCheck := fun _ => some true }

/-- A block that passes `validate_block` under `mockCrypto` at difficulty 0:
its nonce is `id ++ "|"` and its stored Merkle data is the single level
`[["r"]]` matching the header root `"r"` (`validate_block` only compares the
stored root, it does not rebuild the tree). -/
def mkBlock (id parent rr : String) (txs : List Transaction) : BlockNode :=
  { header := { parent := parent, merkle_root := "r", timestamp := 1,
                block_id := id, nonce := id ++ "|", reward_receiver := rr }
    transactions_block := { merkle_tree := { hashes := [["r"]] }, transactions := txs } }

/-- Extract the tree of an `ok` result (fallback otherwise). -/
def okOr (r : AddResult) (fallback : BlockTree) : BlockTree :=
  match r with
  | .ok t => t
  | _ => fallback

/-- Extract the tree carried by a `fail` result (fallback otherwise). -/
def failStateOr (r : AddResult) (fallback : BlockTree) : BlockTree :=
  match r with
  | .fail _ t => t
  | _ => fallback

/-- Empty block `b1` on top of genesis. -/
def exB1 : BlockNode := mkBlock "b1" "0" "R1" []

/-- Empty block `b2` on top of `b1`. -/
def exB2 : BlockNode := mkBlock "b2" "b1" "R2" []

/-- Empty block `c1` on top of genesis (a depth-1 fork tip). -/
def exC1 : BlockNode := mkBlock "c1" "0" "R3" []

/-- Tree after admitting `b1`. -/
def exT1 : BlockTree := okOr (add_block mockCrypto 8 initTree exB1 0) initTree

/-- Tree after admitting `b1` then `b2`. -/
def exT2 : BlockTree := okOr (add_block mockCrypto 8 exT1 exB2 0) initTree

/-- Tree after admitting `b1`, `b2`, then the fork tip `c1`. -/
def exTfork : BlockTree := okOr (add_block mockCrypto 8 exT2 exC1 0) initTree

/-- A signed value transfer from the genesis-funded address. -/
def exTxA : Transaction :=
  { sender := ALICE, receiver := "Bob", message := "SEND $5", sig := "sigA" }

/-- Block `p1` on genesis carrying `exTxA`. -/
def exBt : BlockNode := mkBlock "p1" "0" "R1" [exTxA]

/-- Block `x1` whose parent is `p1`, carrying the same transaction `exTxA`
(a duplicate of its ancestor's transaction once `p1` is admitted). -/
def exXo : BlockNode := mkBlock "x1" "p1" "R2" [exTxA]

/-- Tree after offering `x1` first: its parent is missing, so it is parked
as an orphan. -/
def exTo : BlockTree := okOr (add_block mockCrypto 8 initTree exXo 0) initTree

/-- The tree state carried by the error that adding `p1` to `exTo` produces
(admitting `p1` succeeds, the promotion of the orphan `x1` then fails the
ancestor-duplicate check, and the error propagates out). -/
def exTerr : BlockTree := failStateOr (add_block mockCrypto 8 exTo exBt 0) initTree

/-- Tree after admitting `p1` (no orphans around). -/
def exTp : BlockTree := okOr (add_block mockCrypto 8 initTree exBt 0) initTree

/-- Block `d1` on top of `p1` duplicating `p1`'s transaction. -/
def exDup : BlockNode := mkBlock "d1" "p1" "R9" [exTxA]

/-- A block on genesis that carries the genesis transaction itself: its
transaction duplicates a transaction of its ancestor (genesis), yet the
ancestor walk of `add_block` never inspects genesis's transactions, and
`verify_sig` panics on the 7-byte sender `"GENESIS"` first. -/
def exBg : BlockNode := mkBlock "g1" "0" "Rg" [genesisTx]

/-- A transaction whose sender is shorter than 64 bytes: `verify_sig`
panics on the byte slice `&sender[..64]`. -/
def shortTx : Transaction :=
  { sender := "A", receiver := "B", message := "SEND $1", sig := "s" }

theorem hmLookup_hmInsert_self {α : Type} (m : List (String × α)) (k : String) (v : α) :
    hmLookup (hmInsert m k v) k = some v := by
  induction m with
  | nil => simp [hmInsert, hmLookup]
  | cons kv rest ih =>
    obtain ⟨k', v'⟩ := kv
    by_cases h : k' = k <;> simp [hmInsert, hmLookup, h, ih]

theorem hmLookup_hmInsert_ne {α : Type} (m : List (String × α)) (k : String) (v : α)
    (k2 : String) (h : k2 ≠ k) : hmLookup (hmInsert m k v) k2 = hmLookup m k2 := by
  induction m with
  | nil =>
    simp only [hmInsert, hmLookup]
    rw [if_neg (fun h2 => h h2.symm)]
  | cons kv rest ih =>
    obtain ⟨k', v'⟩ := kv
    simp only [hmInsert]
    by_cases h1 : k' = k
    · subst h1
      rw [if_pos rfl]
      simp only [hmLookup]
      rw [if_neg (fun h2 => h h2.symm), if_neg (fun h2 => h h2.symm)]
    · rw [if_neg h1]
      simp only [hmLookup]
      by_cases h2 : k' = k2
      · rw [if_pos h2, if_pos h2]
      · rw [if_neg h2, if_neg h2]
        exact ih

theorem hmInsert_length_new {α : Type} (m : List (String × α)) (k : String) (v : α)
    (h : hmLookup m k = none) : (hmInsert m k v).length = m.length + 1 := by
  induction m with
  | nil => simp [hmInsert]
  | cons kv rest ih =>
    obtain ⟨k', v'⟩ := kv
    simp only [hmLookup] at h
    by_cases h1 : k' = k
    · simp [h1] at h
    · simp only [hmLookup, h1, if_neg h1] at h ⊢
      simp [hmInsert, h1, ih h]

theorem hmLookup_hmModify_self {α : Type} (m : List (String × α)) (k : String) (f : α → α) :
    hmLookup (hmModify m k f) k = (hmLookup m k).map f := by
  induction m with
  | nil => simp [hmModify, hmLookup]
  | cons kv rest ih =>
    obtain ⟨k', v'⟩ := kv
    by_cases h : k' = k <;> simp [hmModify, hmLookup, h, ih]

theorem hmLookup_hmModify_ne {α : Type} (m : List (String × α)) (k : String) (f : α → α)
    (k2 : String) (h : k2 ≠ k) : hmLookup (hmModify m k f) k2 = hmLookup m k2 := by
  induction m with
  | nil => simp [hmModify, hmLookup]
  | cons kv rest ih =>
    obtain ⟨k', v'⟩ := kv
    simp only [hmModify]
    by_cases h1 : k' = k
    · subst h1
      rw [if_pos rfl]
      simp only [hmLookup]
      rw [if_neg (fun h2 => h h2.symm), if_neg (fun h2 => h h2.symm)]
    · rw [if_neg h1]
      simp only [hmLookup]
      by_cases h2 : k' = k2
      · rw [if_pos h2, if_pos h2]
      · rw [if_neg h2, if_neg h2]
        exact ih

theorem hmModify_length {α : Type} (m : List (String × α)) (k : String) (f : α → α) :
    (hmModify m k f).length = m.length := by
  induction m with
  | nil => simp [hmModify]
  | cons kv rest ih =>
    obtain ⟨k', v'⟩ := kv
    by_cases h : k' = k <;> simp [hmModify, h, ih]

theorem hmModify_isSome {α : Type} (m : List (String × α)) (k : String) (f : α → α)
    (k2 : String) : (hmLookup (hmModify m k f) k2).isSome = (hmLookup m k2).isSome := by
  by_cases h : k2 = k
  · subst h; rw [hmLookup_hmModify_self]; cases hmLookup m k2 <;> simp
  · rw [hmLookup_hmModify_ne _ _ _ _ h]

theorem hmInsert_isSome_mono {α : Type} (m : List (String × α)) (k : String) (v : α)
    (k2 : String) (h : (hmLookup m k2).isSome = true) :
    (hmLookup (hmInsert m k v) k2).isSome = true := by
  by_cases h1 : k2 = k
  · subst h1; rw [hmLookup_hmInsert_self]; rfl
  · rw [hmLookup_hmInsert_ne _ _ _ _ h1]; exact h

theorem valuesSum_hmModify_add (m : List (String × Int)) (k : String) (a : Int)
    (h : (hmLookup m k).isSome = true) :
    valuesSum (hmModify m k (fun e => e + a)) = valuesSum m + a := by
  induction m with
  | nil => simp [hmLookup] at h
  | cons kv rest ih =>
    obtain ⟨k', v'⟩ := kv
    by_cases h1 : k' = k
    · simp [hmModify, h1, valuesSum]; ring
    · simp only [hmLookup, if_neg h1] at h
      simp [hmModify, h1, valuesSum] at ih ⊢
      rw [ih h]; ring

theorem valuesSum_hmModify_sub (m : List (String × Int)) (k : String) (a : Int)
    (h : (hmLookup m k).isSome = true) :
    valuesSum (hmModify m k (fun e => e - a)) = valuesSum m - a := by
  induction m with
  | nil => simp [hmLookup] at h
  | cons kv rest ih =>
    obtain ⟨k', v'⟩ := kv
    by_cases h1 : k' = k
    · simp [hmModify, h1, valuesSum]; ring
    · simp only [hmLookup, if_neg h1] at h
      simp [hmModify, h1, valuesSum] at ih ⊢
      rw [ih h]; ring

theorem valuesSum_hmInsert_new (m : List (String × Int)) (k : String) (a : Int)
    (h : hmLookup m k = none) : valuesSum (hmInsert m k a) = valuesSum m + a := by
  induction m with
  | nil => simp [hmInsert, valuesSum]
  | cons kv rest ih =>
    obtain ⟨k', v'⟩ := kv
    simp only [hmLookup] at h
    by_cases h1 : k' = k
    · simp [h1] at h
    · simp only [if_neg h1] at h
      simp [hmInsert, h1, valuesSum] at ih ⊢
      rw [ih h]; ring

theorem apply_txs_sum : ∀ (txs : List Transaction) (bal bal2 : List (String × Int)),
    apply_txs bal txs = .ok bal2 → valuesSum bal2 = valuesSum bal := by
  intro txs
  induction txs with
  | nil => intro bal bal2 h; simp only [apply_txs, TxsResult.ok.injEq] at h; rw [h]
  | cons tx rest ih =>
    intro bal bal2 h
    simp only [apply_txs] at h
    split at h
    next => exact TxsResult.noConfusion h
    next amount ha =>
      split at h
      next => exact TxsResult.noConfusion h
      next s hs =>
        split at h
        next => exact TxsResult.noConfusion h
        next hlt =>
          have hsum := ih _ _ h
          rw [hsum]
          have hsend : (hmLookup bal tx.sender).isSome = true := by rw [hs]; rfl
          by_cases hr : (hmLookup (hmModify bal tx.sender (fun e => e - amount)) tx.receiver).isSome = true
          · rw [if_pos hr, valuesSum_hmModify_add _ _ _ hr, valuesSum_hmModify_sub _ _ _ hsend]
            ring
          · rw [if_neg hr, valuesSum_hmInsert_new, valuesSum_hmModify_sub _ _ _ hsend]
            · ring
            · rw [← Option.not_isSome_iff_eq_none]
              simpa using hr

theorem add_body_parked_spec (C : Crypto) (lz : Nat) (st : BlockTree) (b : BlockNode)
    (st2 : BlockTree) (h : add_body C lz st b = .parked st2) :
    st2 = { st with orphans := hmInsert st.orphans b.header.block_id b } ∧
    hmLookup st.all_blocks b.header.parent = none := by
  simp only [add_body] at h
  split at h
  next => exact BodyResult.noConfusion h
  next hdup =>
    split at h
    next => exact BodyResult.noConfusion h
    next vr hvr =>
      split at h
      next => exact BodyResult.noConfusion h
      next hvr2 =>
        split at h
        next hpar =>
          cases h
          exact ⟨rfl, hpar⟩
        next pn hpar =>
          split at h
          next => exact BodyResult.noConfusion h
          next atids hanc =>
            split at h
            next => exact BodyResult.noConfusion h
            next hdup2 =>
              split at h
              next => exact BodyResult.noConfusion h
              next e he => exact BodyResult.noConfusion h
              next bal hbal =>
                split at h
                next => exact BodyResult.noConfusion h
                next fb hfb =>
                  split at h
                  next => exact BodyResult.noConfusion h
                  next d hd => exact BodyResult.noConfusion h

theorem add_body_admitted_spec (C : Crypto) (lz : Nat) (st : BlockTree) (b : BlockNode)
    (st2 : BlockTree) (ids : List String) (h : add_body C lz st b = .admitted st2 ids) :
    hmLookup st.all_blocks b.header.block_id = none ∧
    (hmLookup st.all_blocks b.header.parent).isSome = true ∧
    st2.working_block_id = b.header.block_id ∧
    st2.finalized_block_id = b.header.parent ∧
    st2.orphans = st.orphans ∧
    ids = (st.orphans.filter (fun kv => kv.2.header.parent == b.header.block_id)).map Prod.fst ∧
    (∃ d, hmLookup st.block_depth b.header.parent = some d ∧
      st2.block_depth = hmInsert st.block_depth b.header.block_id (d + 1)) ∧
    (∃ bal, apply_txs st.finalized_balance_map b.transactions_block.transactions = .ok bal ∧
      st2.finalized_balance_map =
        (if (hmLookup bal b.header.reward_receiver).isSome then
          hmModify bal b.header.reward_receiver (fun e => e + 10)
         else hmInsert bal b.header.reward_receiver 10)) ∧
    st2.all_blocks = hmModify (hmInsert st.all_blocks b.header.block_id b) b.header.block_id
      (fun bn => { bn with header := { bn.header with parent := b.header.parent } }) := by
  simp only [add_body] at h
  split at h
  next => exact BodyResult.noConfusion h
  next hdup =>
    split at h
    next => exact BodyResult.noConfusion h
    next vr hvr =>
      split at h
      next => exact BodyResult.noConfusion h
      next hvr2 =>
        split at h
        next hpar => exact BodyResult.noConfusion h
        next pn hpar =>
          split at h
          next => exact BodyResult.noConfusion h
          next atids hanc =>
            split at h
            next => exact BodyResult.noConfusion h
            next hdup2 =>
              split at h
              next => exact BodyResult.noConfusion h
              next e he => exact BodyResult.noConfusion h
              next bal hbal =>
                split at h
                next => exact BodyResult.noConfusion h
                next fb hfb =>
                  split at h
                  next => exact BodyResult.noConfusion h
                  next d hd =>
                    cases h
                    have h1 : hmLookup st.all_blocks b.header.block_id = none := by
                      rw [← Option.not_isSome_iff_eq_none]
                      intro hs
                      exact hdup (by simp [hs])
                    refine ⟨h1, by rw [hpar]; rfl, rfl, rfl, rfl, rfl,
                      ⟨d, hd, rfl⟩, ⟨bal, hbal, rfl⟩, rfl⟩

theorem add_body_admitted_sum (C : Crypto) (lz : Nat) (st : BlockTree) (b : BlockNode)
    (st2 : BlockTree) (ids : List String) (h : add_body C lz st b = .admitted st2 ids) :
    valuesSum st2.finalized_balance_map = valuesSum st.finalized_balance_map + 10 ∧
    st2.all_blocks.length = st.all_blocks.length + 1 := by
  obtain ⟨h1, _, _, _, _, _, _, ⟨bal, hbal, hfbm⟩, hab⟩ :=
    add_body_admitted_spec C lz st b st2 ids h
  constructor
  · rw [hfbm]
    have hsum := apply_txs_sum _ _ _ hbal
    by_cases hr : (hmLookup bal b.header.reward_receiver).isSome = true
    · rw [if_pos hr, valuesSum_hmModify_add _ _ _ hr, hsum]
    · rw [if_neg hr, valuesSum_hmInsert_new, hsum]
      rw [← Option.not_isSome_iff_eq_none]
      simpa using hr
  · rw [hab, hmModify_length, hmInsert_length_new _ _ _ h1]

theorem add_body_admitted_tip (C : Crypto) (lz : Nat) (st : BlockTree) (b : BlockNode)
    (st2 : BlockTree) (ids : List String) (h : add_body C lz st b = .admitted st2 ids) :
    TipShape st2 ∧
    (∀ k, (hmLookup st.all_blocks k).isSome = true →
      (hmLookup st2.all_blocks k).isSome = true) := by
  obtain ⟨h1, h2, hwork, hfin, _, _, ⟨d, hd, hdepth⟩, _, hab⟩ :=
    add_body_admitted_spec C lz st b st2 ids h
  have hne : b.header.parent ≠ b.header.block_id := by
    intro he
    rw [he, h1] at h2
    exact Bool.noConfusion h2
  constructor
  · refine ⟨{ b with header := { b.header with parent := b.header.parent } }, d, ?_, ?_, ?_, ?_⟩
    · rw [hab, hwork, hmLookup_hmModify_self, hmLookup_hmInsert_self]
      rfl
    · rw [hfin]
    · rw [hdepth, hwork, hmLookup_hmInsert_self]
    · rw [hdepth, hfin, hmLookup_hmInsert_ne _ _ _ _ hne]
      exact hd
  · intro k hk
    rw [hab, hmModify_isSome]
    exact hmInsert_isSome_mono _ _ _ _ hk

theorem sameCore_rfl (st : BlockTree) : SameCore st st := ⟨rfl, rfl, rfl, rfl⟩

theorem sameCore_trans (a b c : BlockTree) (h1 : SameCore a b) (h2 : SameCore b c) :
    SameCore a c := by
  obtain ⟨x1, x2, x3, x4⟩ := h1
  obtain ⟨y1, y2, y3, y4⟩ := h2
  exact ⟨y1.trans x1, y2.trans x2, y3.trans x3, y4.trans x4⟩

theorem tipShape_of_sameCore (a b : BlockTree) (h1 : TipShape a) (h2 : SameCore a b) :
    TipShape b := by
  obtain ⟨e1, e2, e3, e4⟩ := h2
  obtain ⟨bn, d, g1, g2, g3, g4⟩ := h1
  exact ⟨bn, d, by rw [e1, e3]; exact g1, by rw [e4]; exact g2,
    by rw [e2, e3]; exact g3, by rw [e2, e4]; exact g4⟩

theorem addBlockRun_mono (C : Crypto) (lz : Nat) :
    ∀ (fuel : Nat) (st : BlockTree) (job : Job) (t2 : BlockTree),
      resultState (addBlockRun C lz fuel st job) = some t2 →
      ∀ k, (hmLookup st.all_blocks k).isSome = true →
        (hmLookup t2.all_blocks k).isSome = true := by
  intro fuel
  induction fuel with
  | zero =>
    intro st job t2 h
    simp [addBlockRun, resultState] at h
  | succ f ih =>
    intro st job t2 h k hk
    cases job with
    | add b =>
      cases hb : add_body C lz st b with
      | crash => simp [addBlockRun, hb, resultState] at h
      | fail e =>
        simp only [addBlockRun, hb, resultState, Option.some.injEq] at h
        rw [← h]
        exact hk
      | parked st1 =>
        simp only [addBlockRun, hb, resultState, Option.some.injEq] at h
        obtain ⟨hst1, _⟩ := add_body_parked_spec C lz st b st1 hb
        rw [← h, hst1]
        exact hk
      | admitted st1 ids =>
        simp only [addBlockRun, hb] at h
        exact ih st1 (.promote ids) t2 h k
          ((add_body_admitted_tip C lz st b st1 ids hb).2 k hk)
    | promote ids =>
      cases ids with
      | nil =>
        simp only [addBlockRun, resultState, Option.some.injEq] at h
        rw [← h]
        exact hk
      | cons o rest =>
        cases ho : hmLookup st.orphans o with
        | none => simp [addBlockRun, ho, resultState] at h
        | some ob =>
          cases hr : addBlockRun C lz f { st with orphans := hmRemove st.orphans o } (.add ob) with
          | crash => simp [addBlockRun, ho, hr, resultState] at h
          | out => simp [addBlockRun, ho, hr, resultState] at h
          | fail e st3 =>
            simp only [addBlockRun, ho, hr, resultState, Option.some.injEq] at h
            rw [← h]
            exact ih { st with orphans := hmRemove st.orphans o } (.add ob) st3
              (by rw [hr]; rfl) k hk
          | ok st3 =>
            simp only [addBlockRun, ho, hr] at h
            have hk3 : (hmLookup st3.all_blocks k).isSome = true :=
              ih { st with orphans := hmRemove st.orphans o } (.add ob) st3
                (by rw [hr]; rfl) k hk
            exact ih st3 (.promote rest) t2 h k hk3

theorem addBlockRun_sum (C : Crypto) (lz : Nat) :
    ∀ (fuel : Nat) (st : BlockTree) (job : Job) (t2 : BlockTree),
      addBlockRun C lz fuel st job = .ok t2 →
      valuesSum t2.finalized_balance_map + 10 * (st.all_blocks.length : Int)
        = valuesSum st.finalized_balance_map + 10 * (t2.all_blocks.length : Int) := by
  intro fuel
  induction fuel with
  | zero =>
    intro st job t2 h
    simp [addBlockRun] at h
  | succ f ih =>
    intro st job t2 h
    cases job with
    | add b =>
      cases hb : add_body C lz st b with
      | crash => simp [addBlockRun, hb] at h
      | fail e => simp [addBlockRun, hb] at h
      | parked st1 =>
        simp only [addBlockRun, hb, AddResult.ok.injEq] at h
        obtain ⟨hst1, _⟩ := add_body_parked_spec C lz st b st1 hb
        rw [← h, hst1]
      | admitted st1 ids =>
        simp only [addBlockRun, hb] at h
        have h2 := ih st1 (.promote ids) t2 h
        obtain ⟨hsum, hlen⟩ := add_body_admitted_sum C lz st b st1 ids hb
        rw [hsum, hlen] at h2
        push_cast at h2 ⊢
        linarith
    | promote ids =>
      cases ids with
      | nil =>
        simp only [addBlockRun, AddResult.ok.injEq] at h
        rw [← h]
      | cons o rest =>
        cases ho : hmLookup st.orphans o with
        | none => simp [addBlockRun, ho] at h
        | some ob =>
          cases hr : addBlockRun C lz f { st with orphans := hmRemove st.orphans o } (.add ob) with
          | crash => simp [addBlockRun, ho, hr] at h
          | out => simp [addBlockRun, ho, hr] at h
          | fail e st3 => simp [addBlockRun, ho, hr] at h
          | ok st3 =>
            simp only [addBlockRun, ho, hr] at h
            have h1 := ih { st with orphans := hmRemove st.orphans o } (.add ob) st3 hr
            have h2 := ih st3 (.promote rest) t2 h
            simp only at h1
            linarith

theorem addBlockRun_shape (C : Crypto) (lz : Nat) :
    ∀ (fuel : Nat) (st : BlockTree) (job : Job) (t2 : BlockTree),
      addBlockRun C lz fuel st job = .ok t2 → SameCore st t2 ∨ TipShape t2 := by
  intro fuel
  induction fuel with
  | zero =>
    intro st job t2 h
    simp [addBlockRun] at h
  | succ f ih =>
    intro st job t2 h
    cases job with
    | add b =>
      cases hb : add_body C lz st b with
      | crash => simp [addBlockRun, hb] at h
      | fail e => simp [addBlockRun, hb] at h
      | parked st1 =>
        simp only [addBlockRun, hb, AddResult.ok.injEq] at h
        obtain ⟨hst1, _⟩ := add_body_parked_spec C lz st b st1 hb
        left
        rw [← h, hst1]
        exact ⟨rfl, rfl, rfl, rfl⟩
      | admitted st1 ids =>
        simp only [addBlockRun, hb] at h
        have htip := (add_body_admitted_tip C lz st b st1 ids hb).1
        rcases ih st1 (.promote ids) t2 h with hsc | htip2
        · exact Or.inr (tipShape_of_sameCore st1 t2 htip hsc)
        · exact Or.inr htip2
    | promote ids =>
      cases ids with
      | nil =>
        simp only [addBlockRun, AddResult.ok.injEq] at h
        left
        rw [← h]
        exact sameCore_rfl st
      | cons o rest =>
        cases ho : hmLookup st.orphans o with
        | none => simp [addBlockRun, ho] at h
        | some ob =>
          cases hr : addBlockRun C lz f { st with orphans := hmRemove st.orphans o } (.add ob) with
          | crash => simp [addBlockRun, ho, hr] at h
          | out => simp [addBlockRun, ho, hr] at h
          | fail e st3 => simp [addBlockRun, ho, hr] at h
          | ok st3 =>
            simp only [addBlockRun, ho, hr] at h
            have hsc1 : SameCore st { st with orphans := hmRemove st.orphans o } :=
              ⟨rfl, rfl, rfl, rfl⟩
            rcases ih { st with orphans := hmRemove st.orphans o } (.add ob) st3 hr with hsc2 | htip2
            · rcases ih st3 (.promote rest) t2 h with hsc3 | htip3
              · exact Or.inl (sameCore_trans st st3 t2
                  (sameCore_trans st _ st3 hsc1 hsc2) hsc3)
              · exact Or.inr htip3
            · rcases ih st3 (.promote rest) t2 h with hsc3 | htip3
              · exact Or.inr (tipShape_of_sameCore st3 t2 htip2 hsc3)
              · exact Or.inr htip3

theorem blockTree_new_eq : BlockTree.new = some initTree := by decide

/-- Claim C1 (corrected): after a successful `add_block`, either the call
only parked orphans (core fields untouched) or the last block admitted
during the call became `working_block_id` with `finalized_block_id` equal to
its parent, one depth level below -- not `max(0, depth(working) - 6)`. -/
theorem c1_tip_shape_after_add (C : Crypto) (fuel lz : Nat) (st : BlockTree)
    (b : BlockNode) (t2 : BlockTree) (h : add_block C fuel st b lz = .ok t2) :
    SameCore st t2 ∨ TipShape t2 :=
  addBlockRun_shape C lz fuel st (.add b) t2 h

/-- Witness for C1: the amended shape at the concrete one-block admission. -/
theorem c1_witness : SameCore initTree exT1 ∨ TipShape exT1 :=
  c1_tip_shape_after_add mockCrypto 8 0 initTree exB1 exT1 (by decide)

/-- Counterexample for C1 as stated: after admitting `b1` then `b2`
(depth 2 tip), the finalized block is `b1` at depth 1, but
`max(0, 2 - 6) = 0`; finalization tracks the tip's parent, not six levels
behind. -/
theorem c1_counterexample :
    (add_block mockCrypto 8 initTree exB1 0 = .ok exT1) ∧
    (add_block mockCrypto 8 exT1 exB2 0 = .ok exT2) ∧
    exT2.working_block_id = "b2" ∧
    hmLookup exT2.block_depth "b2" = some 2 ∧
    exT2.finalized_block_id = "b1" ∧
    hmLookup exT2.block_depth "b1" = some 1 ∧
    (1 : Nat) ≠ max 0 (2 - 6) := by decide

/-- Claim C2 (corrected): a successful `add_block` that admits `b` directly
(parent present) and has no orphans waiting on `b` makes `b` itself the
working block -- unconditionally, with no depth maximization. -/
theorem c2_working_is_block_just_added (C : Crypto) (fuel lz : Nat)
    (st : BlockTree) (b : BlockNode) (t2 : BlockTree)
    (h : add_block C (fuel + 1) st b lz = .ok t2)
    (hpar : (hmLookup st.all_blocks b.header.parent).isSome = true)
    (horp : st.orphans.filter (fun kv => kv.2.header.parent == b.header.block_id) = []) :
    t2.working_block_id = b.header.block_id := by
  simp only [add_block] at h
  cases hb : add_body C lz st b with
  | crash => simp [addBlockRun, hb] at h
  | fail e => simp [addBlockRun, hb] at h
  | parked st1 =>
    obtain ⟨_, hnone⟩ := add_body_parked_spec C lz st b st1 hb
    rw [hnone] at hpar
    exact Bool.noConfusion hpar
  | admitted st1 ids =>
    simp only [addBlockRun, hb] at h
    obtain ⟨_, _, hwork, _, _, hids, _, _, _⟩ := add_body_admitted_spec C lz st b st1 ids hb
    rw [horp] at hids
    simp only [List.map_nil] at hids
    subst hids
    cases fuel with
    | zero => simp [addBlockRun] at h
    | succ g =>
      simp only [addBlockRun, AddResult.ok.injEq] at h
      rw [← h]
      exact hwork

/-- Witness for C2: the concrete one-block admission. -/
theorem c2_witness : exT1.working_block_id = exB1.header.block_id :=
  c2_working_is_block_just_added mockCrypto 7 0 initTree exB1 exT1
    (by decide) (by decide) (by decide)

/-- Counterexample for C2 as stated: after `b1`, `b2` (depth 2) and then the
fork tip `c1` (depth 1), the working block is `c1` -- the most recently
added block -- although `b2` is strictly deeper. -/
theorem c2_counterexample :
    (add_block mockCrypto 8 exT2 exC1 0 = .ok exTfork) ∧
    exTfork.working_block_id = "c1" ∧
    hmLookup exTfork.block_depth "c1" = some 1 ∧
    hmLookup exTfork.block_depth "b2" = some 2 ∧
    (1 : Nat) < 2 := by decide

/-- Claim C3 (corrected): when `add_block` returns an error, either the tree
is exactly as before the call (all rejections of the block itself), or the
offered block `b` is already in `all_blocks` -- the mutated state an error
during the re-admission of a promoted orphan leaves behind. -/
theorem c3_error_state (C : Crypto) (fuel lz : Nat) (st : BlockTree)
    (b : BlockNode) (e : String) (t2 : BlockTree)
    (h : add_block C fuel st b lz = .fail e t2) :
    t2 = st ∨ (hmLookup t2.all_blocks b.header.block_id).isSome = true := by
  cases fuel with
  | zero => simp [add_block, addBlockRun] at h
  | succ f =>
    simp only [add_block] at h
    cases hb : add_body C lz st b with
    | crash => simp [addBlockRun, hb] at h
    | parked st1 => simp [addBlockRun, hb] at h
    | fail e2 =>
      simp only [addBlockRun, hb, AddResult.fail.injEq] at h
      exact Or.inl h.2.symm
    | admitted st1 ids =>
      simp only [addBlockRun, hb] at h
      right
      obtain ⟨h1, _, _, _, _, _, _, _, hab⟩ := add_body_admitted_spec C lz st b st1 ids hb
      have hsome : (hmLookup st1.all_blocks b.header.block_id).isSome = true := by
        rw [hab, hmLookup_hmModify_self, hmLookup_hmInsert_self]
        rfl
      exact addBlockRun_mono C lz f st1 (.promote ids) t2 (by rw [h]; rfl) _ hsome

/-- Witness for C3: the concrete failing orphan promotion. -/
theorem c3_witness :
    exTerr = exTo ∨ (hmLookup exTerr.all_blocks exBt.header.block_id).isSome = true :=
  c3_error_state mockCrypto 8 0 exTo exBt
    "Transactions in block are duplicates with ancestor blocks." exTerr (by decide)

/-- Counterexample for C3 as stated: with the orphan `x1` (which duplicates
`p1`'s transaction) parked, adding `p1` returns an error -- raised while
re-admitting `x1` -- yet the tree is mutated: `p1` stays admitted and `x1`
is gone from the orphan map. -/
theorem c3_counterexample :
    (add_block mockCrypto 8 initTree exXo 0 = .ok exTo) ∧
    hmLookup exTo.orphans "x1" = some exXo ∧
    (add_block mockCrypto 8 exTo exBt 0 =
      .fail "Transactions in block are duplicates with ancestor blocks." exTerr) ∧
    exTerr ≠ exTo ∧
    (hmLookup exTerr.all_blocks "p1").isSome = true ∧
    hmLookup exTerr.orphans "x1" = none := by decide

/-- Claim C4 (corrected): each successful `add_block` call grows the sum of
`finalized_balance_map` by exactly $10 per block admitted during the call
(transactions conserve value); the map replays *every* admitted block in
admission order, not the path from genesis to `finalized_block_id`. -/
theorem c4_balance_delta (C : Crypto) (fuel lz : Nat) (st : BlockTree)
    (b : BlockNode) (t2 : BlockTree) (h : add_block C fuel st b lz = .ok t2) :
    valuesSum t2.finalized_balance_map + 10 * (st.all_blocks.length : Int)
      = valuesSum st.finalized_balance_map + 10 * (t2.all_blocks.length : Int) :=
  addBlockRun_sum C lz fuel st (.add b) t2 h

/-- Witness for C4: the concrete one-block admission. -/
theorem c4_witness :
    valuesSum exT1.finalized_balance_map + 10 * (initTree.all_blocks.length : Int)
      = valuesSum initTree.finalized_balance_map + 10 * (exT1.all_blocks.length : Int) :=
  c4_balance_delta mockCrypto 8 0 initTree exB1 exT1 (by decide)

/-- Counterexample for C4 as stated: after a single empty block `b1`,
`finalized_block_id` is still genesis, whose replay sums to 299792458 with
zero non-genesis finalized blocks, yet the map already contains `b1`'s $10
reward. -/
theorem c4_counterexample :
    (add_block mockCrypto 8 initTree exB1 0 = .ok exT1) ∧
    exT1.finalized_block_id = "0" ∧
    valuesSum exT1.finalized_balance_map = 299792458 + 10 ∧
    (299792458 + 10 : Int) ≠ 299792458 + 10 * 0 := by decide

/-- Claim C5 (code bug): on the concrete tree with chain `0 → b1 → b2` and
`finalized_block_id = "b1"`, calling `get_finalized_blocks_since` with the
genuine ancestor `"0"` -- exactly the input the function's own documentation
prescribes -- never terminates: the loop walks parent links *downward* from
`"0"` (whose parent is itself) and can never reach `"b1"`, so no fuel
suffices; the documented result would be the one-element list `[b1]`. -/
theorem c5_since_walk_diverges :
    exT2.finalized_block_id = "b1" ∧
    get_block exT2 "0" = some genesis_block ∧
    ∀ fuel, get_finalized_blocks_since exT2 fuel "0" = none := by
  refine ⟨by decide, by decide, ?_⟩
  have hne : ("0" : String) ≠ exT2.finalized_block_id := by decide
  have hgb : get_block exT2 "0" = some genesis_block := by decide
  have hpar : genesis_block.header.parent = "0" := rfl
  intro fuel
  induction fuel with
  | zero => simp [get_finalized_blocks_since, hne]
  | succ f ih => simp [get_finalized_blocks_since, hne, hgb, hpar, ih]

theorem pairUp_length (H : String → String) : ∀ l : List String,
    (pairUp H l).length = l.length / 2
  | [] => by simp [pairUp]
  | [a] => by simp [pairUp]
  | a :: b :: rest => by
    have ih := pairUp_length H rest
    simp [pairUp, ih]
    omega

theorem nextLevel_length (H : String → String) (l : List String) (h : 1 < l.length) :
    (nextLevel H l).length < l.length := by
  simp only [nextLevel, List.length_append, pairUp_length]
  by_cases hodd : l.length % 2 ≠ 0 <;> simp [hodd] <;> omega

theorem nextLevel_ne_nil (H : String → String) (l : List String) (h : 1 < l.length) :
    nextLevel H l ≠ [] := by
  intro he
  have hlen : (nextLevel H l).length = 0 := by rw [he]; rfl
  simp only [nextLevel, List.length_append, pairUp_length] at hlen
  by_cases hodd : l.length % 2 ≠ 0 <;> (simp [hodd] at hlen; try omega)

theorem buildLevelsF_ne_nil (H : String → String) : ∀ (f : Nat) (l : List String),
    buildLevelsF H f l ≠ []
  | 0, l => by simp [buildLevelsF]
  | f + 1, l => by
    simp only [buildLevelsF]
    split <;> simp

theorem buildLevelsF_head (H : String → String) : ∀ (f : Nat) (l : List String),
    (buildLevelsF H f l).head? = some l
  | 0, l => by simp [buildLevelsF]
  | f + 1, l => by
    simp only [buildLevelsF]
    split <;> simp

theorem cons_getLast_of_ne_nil {α : Type} (x : α) (ys : List α) (h : ys ≠ []) :
    (x :: ys).getLast? = ys.getLast? := by
  cases ys with
  | nil => exact absurd rfl h
  | cons y ys => exact List.getLast?_cons_cons

theorem buildLevelsF_last (H : String → String) : ∀ (f : Nat) (l : List String),
    l ≠ [] → l.length ≤ f + 1 → ∃ r, (buildLevelsF H f l).getLast? = some [r]
  | 0, l, hne, hlen => by
    cases l with
    | nil => exact absurd rfl hne
    | cons a as =>
      cases as with
      | nil => exact ⟨a, by simp [buildLevelsF]⟩
      | cons b bs => simp at hlen
  | f + 1, l, hne, hlen => by
    by_cases h1 : 1 < l.length
    · have hnext_ne := nextLevel_ne_nil H l h1
      have hnext_len := nextLevel_length H l h1
      obtain ⟨r, hr⟩ := buildLevelsF_last H f (nextLevel H l) hnext_ne (by omega)
      refine ⟨r, ?_⟩
      simp only [buildLevelsF, if_pos h1]
      rw [cons_getLast_of_ne_nil _ _ (buildLevelsF_ne_nil H f _)]
      exact hr
    · cases l with
      | nil => exact absurd rfl hne
      | cons a as =>
        cases as with
        | nil => exact ⟨a, by simp [buildLevelsF]⟩
        | cons b bs => simp at h1

theorem buildLevelsF_chain (H : String → String) : ∀ (f : Nat) (l : List String),
    l.length ≤ f + 1 → levelsChained H (buildLevelsF H f l) = true
  | 0, l, hlen => by simp [buildLevelsF, levelsChained]
  | f + 1, l, hlen => by
    by_cases h1 : 1 < l.length
    · have hnext_len := nextLevel_length H l h1
      have ih := buildLevelsF_chain H f (nextLevel H l) (by omega)
      simp only [buildLevelsF, if_pos h1]
      have hh := buildLevelsF_head H f (nextLevel H l)
      cases hbl : buildLevelsF H f (nextLevel H l) with
      | nil => exact absurd hbl (buildLevelsF_ne_nil H f _)
      | cons m rest =>
        rw [hbl] at hh ih
        obtain rfl : m = nextLevel H l := by simpa using hh
        simpa [levelsChained, h1] using ih
    · simp [buildLevelsF, if_neg h1, levelsChained]

/-- Claim C6 (confirmed): for a non-empty transaction list
`create_merkle_tree` succeeds; level 0 of the produced tree is the list of
per-transaction hashes; every later level is `nextLevel` of its predecessor
(on an odd count the duplicate of the last hash is pushed first, then
adjacent pairs are combined from index 0); construction stops at the
single-hash level, which carries the returned root; and the result is a
deterministic function of the transaction list. -/
theorem c6_merkle_structure (C : Crypto) (txs : List Transaction) (h : txs ≠ []) :
    ∃ r t, create_merkle_tree C txs = some (r, t) ∧
      t.hashes.head? = some (txs.map C.gen_hash) ∧
      levelsChained C.sha256hex t.hashes = true ∧
      t.hashes.getLast? = some [r] ∧
      ∀ txs2, txs2 = txs → create_merkle_tree C txs2 = create_merkle_tree C txs := by
  have hne : txs.map C.gen_hash ≠ [] := by simpa using h
  have hlen : (txs.map C.gen_hash).length ≤ txs.length + 1 := by simp
  obtain ⟨r, hr⟩ := buildLevelsF_last C.sha256hex txs.length (txs.map C.gen_hash) hne hlen
  refine ⟨r, { hashes := buildLevelsF C.sha256hex txs.length (txs.map C.gen_hash) },
    ?_, buildLevelsF_head _ _ _, buildLevelsF_chain _ _ _ hlen, hr, fun txs2 he => by rw [he]⟩
  simp only [create_merkle_tree]
  rw [if_neg (by simpa using h)]
  simp only [hr]
  simp

/-- Witness for C6 at a concrete singleton list. -/
theorem c6_witness :
    ∃ r t, create_merkle_tree mockCrypto [genesisTx] = some (r, t) ∧
      t.hashes.head? = some ([genesisTx].map mockCrypto.gen_hash) ∧
      levelsChained mockCrypto.sha256hex t.hashes = true ∧
      t.hashes.getLast? = some [r] ∧
      ∀ txs2, txs2 = [genesisTx] →
        create_merkle_tree mockCrypto txs2 = create_merkle_tree mockCrypto [genesisTx] :=
  c6_merkle_structure mockCrypto [genesisTx] (by decide)

/-- Claim C9 (confirmed): `create_merkle_tree` fails (panics) exactly on the
empty transaction list, and for every non-empty list it returns normally
with the final level of the tree holding exactly one hash, the root. -/
theorem c9_empty_fails_nonempty_single_root (C : Crypto) :
    create_merkle_tree C [] = none ∧
    ∀ txs : List Transaction, txs ≠ [] →
      ∃ r t, create_merkle_tree C txs = some (r, t) ∧ t.hashes.getLast? = some [r] := by
  refine ⟨rfl, fun txs h => ?_⟩
  have hne : txs.map C.gen_hash ≠ [] := by simpa using h
  obtain ⟨r, hr⟩ := buildLevelsF_last C.sha256hex txs.length (txs.map C.gen_hash) hne (by simp)
  refine ⟨r, { hashes := buildLevelsF C.sha256hex txs.length (txs.map C.gen_hash) }, ?_, hr⟩
  simp only [create_merkle_tree]
  rw [if_neg (by simpa using h)]
  simp only [hr]
  simp

/-- Witness for C9 at a concrete two-element list. -/
theorem c9_witness :
    create_merkle_tree mockCrypto [] = none ∧
    (∃ r t, create_merkle_tree mockCrypto [genesisTx, exTxA] = some (r, t) ∧
      t.hashes.getLast? = some [r]) :=
  ⟨(c9_empty_fails_nonempty_single_root mockCrypto).1,
   (c9_empty_fails_nonempty_single_root mockCrypto).2 [genesisTx, exTxA] (by decide)⟩

theorem add_body_fail_spec (C : Crypto) (lz : Nat) (st : BlockTree) (b : BlockNode)
    (e : String) (h : add_body C lz st b = .fail e) :
    ((hmLookup st.all_blocks b.header.block_id).isSome
        || (hmLookup st.orphans b.header.block_id).isSome) = true ∨
    (∃ vr, validate_block C b lz = some vr ∧ vr ≠ (true, b.header.block_id)) ∨
    (∃ S, collect_ancestor_tx_ids C st.all_blocks (st.all_blocks.length + 1)
        b.header.parent [] = some S ∧
      b.transactions_block.transactions.any (fun tx => S.contains (C.gen_hash tx)) = true) ∨
    (∃ e2, apply_txs st.finalized_balance_map b.transactions_block.transactions = .fail e2) := by
  simp only [add_body] at h
  split at h
  next hc => exact Or.inl hc
  next hdup =>
    split at h
    next => exact BodyResult.noConfusion h
    next vr hvr =>
      split at h
      next hne => exact Or.inr (Or.inl ⟨vr, hvr, hne⟩)
      next hne =>
        split at h
        next hpar => exact BodyResult.noConfusion h
        next pn hpar =>
          split at h
          next => exact BodyResult.noConfusion h
          next atids hanc =>
            split at h
            next hany => exact Or.inr (Or.inr (Or.inl ⟨atids, hanc, hany⟩))
            next hany =>
              split at h
              next => exact BodyResult.noConfusion h
              next e2 he2 => exact Or.inr (Or.inr (Or.inr ⟨e2, he2⟩))
              next bal hbal =>
                split at h
                next => exact BodyResult.noConfusion h
                next fb hfb =>
                  split at h
                  next => exact BodyResult.noConfusion h
                  next d hd => exact BodyResult.noConfusion h

theorem add_body_crash_spec (C : Crypto) (lz : Nat) (st : BlockTree) (b : BlockNode)
    (h : add_body C lz st b = .crash) :
    validate_block C b lz = none ∨
    collect_ancestor_tx_ids C st.all_blocks (st.all_blocks.length + 1)
      b.header.parent [] = none ∨
    apply_txs st.finalized_balance_map b.transactions_block.transactions = .crash ∨
    hmLookup st.block_depth b.header.parent = none := by
  simp only [add_body] at h
  split at h
  next => exact BodyResult.noConfusion h
  next hdup =>
    split at h
    next hv => exact Or.inl hv
    next vr hvr =>
      split at h
      next => exact BodyResult.noConfusion h
      next hne =>
        split at h
        next hpar => exact BodyResult.noConfusion h
        next pn hpar =>
          split at h
          next hanc => exact Or.inr (Or.inl hanc)
          next atids hanc =>
            split at h
            next => exact BodyResult.noConfusion h
            next hany =>
              split at h
              next hcr => exact Or.inr (Or.inr (Or.inl hcr))
              next e2 he2 => exact BodyResult.noConfusion h
              next bal hbal =>
                split at h
                next hfb =>
                  exfalso
                  have h1 : hmLookup st.all_blocks b.header.block_id = none := by
                    rw [← Option.not_isSome_iff_eq_none]
                    intro hs
                    exact hdup (by simp [hs])
                  have hne2 : b.header.parent ≠ b.header.block_id := by
                    intro he
                    rw [he, h1] at hpar
                    exact Option.noConfusion hpar
                  rw [hmLookup_hmInsert_ne _ _ _ _ hne2, hpar] at hfb
                  exact Option.noConfusion hfb
                next fb hfb =>
                  split at h
                  next hd => exact Or.inr (Or.inr (Or.inr hd))
                  next d hd => exact BodyResult.noConfusion h

/-- Claim C7 (corrected): the duplicate-transaction rejection of `add_block`
checks the block's transactions against the transactions of its proper
ancestors *excluding genesis* (the walk of block.rs:300 stops at `"0"`
before collecting its transactions).  First half: whenever the walk finds a
duplicate, the call fails with the duplicate error and the tree unchanged.
Second half: with no duplicate among the walked ancestors (and the other
admission conditions holding, no orphan waiting on the block), the block is
admitted -- even if its transactions duplicate a genesis transaction, since
those are never inspected (a block actually carrying the genesis transaction
instead panics inside signature verification; see the counterexample). -/
theorem c7_duplicate_check (C : Crypto) (lz : Nat) (st : BlockTree) (b : BlockNode)
    (fuel : Nat) :
    (∀ S, hmLookup st.all_blocks b.header.block_id = none →
       hmLookup st.orphans b.header.block_id = none →
       validate_block C b lz = some (true, b.header.block_id) →
       (hmLookup st.all_blocks b.header.parent).isSome = true →
       collect_ancestor_tx_ids C st.all_blocks (st.all_blocks.length + 1)
         b.header.parent [] = some S →
       b.transactions_block.transactions.any (fun tx => S.contains (C.gen_hash tx)) = true →
       add_block C (fuel + 1) st b lz =
         .fail "Transactions in block are duplicates with ancestor blocks." st) ∧
    (∀ S, hmLookup st.all_blocks b.header.block_id = none →
       hmLookup st.orphans b.header.block_id = none →
       validate_block C b lz = some (true, b.header.block_id) →
       (hmLookup st.all_blocks b.header.parent).isSome = true →
       collect_ancestor_tx_ids C st.all_blocks (st.all_blocks.length + 1)
         b.header.parent [] = some S →
       b.transactions_block.transactions.any (fun tx => S.contains (C.gen_hash tx)) = false →
       (∃ bal, apply_txs st.finalized_balance_map b.transactions_block.transactions = .ok bal) →
       (hmLookup st.block_depth b.header.parent).isSome = true →
       st.orphans.filter (fun kv => kv.2.header.parent == b.header.block_id) = [] →
       ∃ t2, add_block C (fuel + 2) st b lz = .ok t2 ∧
         (hmLookup t2.all_blocks b.header.block_id).isSome = true) := by
  constructor
  · intro S h1 h2 h3 h4 h5 h6
    obtain ⟨pn, hpn⟩ := Option.isSome_iff_exists.mp h4
    have hbody : add_body C lz st b =
        .fail "Transactions in block are duplicates with ancestor blocks." := by
      simp only [add_body, h1, h2, h3, hpn, h5, h6, Option.isSome_none, Bool.or_self,
        Bool.false_eq_true, ne_eq, Prod.mk.injEq, true_and, not_true_eq_false,
        eq_self_iff_true, not_true, if_false, if_true, ite_true, ite_false, and_self]
    simp [add_block, addBlockRun, hbody]
  · intro S h1 h2 h3 h4 h5 h6 h7 h8 h9
    obtain ⟨pn, hpn⟩ := Option.isSome_iff_exists.mp h4
    obtain ⟨bal, hbal⟩ := h7
    obtain ⟨d, hd⟩ := Option.isSome_iff_exists.mp h8
    cases hb : add_body C lz st b with
    | crash =>
      exfalso
      rcases add_body_crash_spec C lz st b hb with hx | hx | hx | hx
      · rw [h3] at hx; exact Option.noConfusion hx
      · rw [h5] at hx; exact Option.noConfusion hx
      · rw [hbal] at hx; exact TxsResult.noConfusion hx
      · rw [hd] at hx; exact Option.noConfusion hx
    | fail e =>
      exfalso
      rcases add_body_fail_spec C lz st b e hb with hx | ⟨vr, hvr, hne⟩ | ⟨S2, hS2, hany⟩ | ⟨e2, he2⟩
      · rw [h1, h2] at hx; simp at hx
      · rw [h3] at hvr
        exact hne (Option.some.inj hvr).symm
      · rw [h5] at hS2
        rw [Option.some.inj hS2] at h6
        rw [hany] at h6
        exact Bool.noConfusion h6
      · rw [hbal] at he2; exact TxsResult.noConfusion he2
    | parked st1 =>
      exfalso
      obtain ⟨_, hnone⟩ := add_body_parked_spec C lz st b st1 hb
      rw [hnone] at hpn
      exact Option.noConfusion hpn
    | admitted st1 ids =>
      obtain ⟨_, _, _, _, _, hids, _, _, hab⟩ := add_body_admitted_spec C lz st b st1 ids hb
      rw [h9] at hids
      simp only [List.map_nil] at hids
      subst hids
      refine ⟨st1, ?_, ?_⟩
      · simp [add_block, addBlockRun, hb]
      · rw [hab, hmLookup_hmModify_self, hmLookup_hmInsert_self]
        rfl

/-- Witness for C7: rejection of the concrete duplicate `d1` over `p1`, and
admission of the concrete duplicate-free empty block `b1`. -/
theorem c7_witness :
    (add_block mockCrypto (7 + 1) exTp exDup 0 =
      .fail "Transactions in block are duplicates with ancestor blocks." exTp) ∧
    (∃ t2, add_block mockCrypto (6 + 2) initTree exB1 0 = .ok t2 ∧
      (hmLookup t2.all_blocks exB1.header.block_id).isSome = true) :=
  ⟨(c7_duplicate_check mockCrypto 0 exTp exDup 7).1 [mockCrypto.gen_hash exTxA]
      (by decide) (by decide) (by decide) (by decide) (by decide) (by decide),
   (c7_duplicate_check mockCrypto 0 initTree exB1 6).2 []
      (by decide) (by decide) (by decide) (by decide) (by decide) (by decide)
      ⟨initTree.finalized_balance_map, by decide⟩ (by decide) (by decide)⟩

/-- Counterexample for C7 as stated: the block `g1` on genesis carries the
genesis transaction itself -- a transaction whose TxId equals the TxId of a
transaction of its ancestor genesis -- yet `add_block` does not return an
error: signature validation panics on the 7-byte sender `"GENESIS"`
(`&sender[..64]`), and the ancestor walk would not have inspected genesis's
transactions anyway. -/
theorem c7_counterexample :
    exBg.transactions_block.transactions = [genesisTx] ∧
    genesisTx ∈ genesis_block.transactions_block.transactions ∧
    exBg.header.parent = genesis_block.header.block_id ∧
    add_block mockCrypto 8 initTree exBg 0 = .crash := by decide

/-- Claim C8 (corrected): complete case law of `add_tx`. It returns `false`
with the pool unchanged exactly when the transaction is already present,
already removed, the pool is full, or signature verification *runs and
returns* `false`; it panics (instead of returning `false`) exactly when none
of those hold and `verify_sig` itself panics (e.g. a sender shorter than 64
bytes); otherwise it appends the transaction id at the end of the insertion
order, inserts the transaction, and returns `true`. -/
theorem c8_add_tx_cases (C : Crypto) (p : TxPool) (tx : Transaction) :
    (add_tx C p tx = some (false, p) ↔
      ((hmLookup p.pool_tx_map (C.gen_hash tx)).isSome = true ∨
       p.removed_tx_ids.contains (C.gen_hash tx) = true ∨
       MAX_TX_POOL ≤ p.pool_tx_ids.length ∨
       verify_sig C tx = some false)) ∧
    (add_tx C p tx = none ↔
      ((hmLookup p.pool_tx_map (C.gen_hash tx)).isSome = false ∧
       p.removed_tx_ids.contains (C.gen_hash tx) = false ∧
       p.pool_tx_ids.length < MAX_TX_POOL ∧
       verify_sig C tx = none)) ∧
    (∀ q : TxPool, add_tx C p tx = some (true, q) ↔
      ((hmLookup p.pool_tx_map (C.gen_hash tx)).isSome = false ∧
       p.removed_tx_ids.contains (C.gen_hash tx) = false ∧
       p.pool_tx_ids.length < MAX_TX_POOL ∧
       verify_sig C tx = some true ∧
       q = { p with pool_tx_ids := p.pool_tx_ids ++ [C.gen_hash tx]
                    pool_tx_map := hmInsert p.pool_tx_map (C.gen_hash tx) tx })) := by
  by_cases hc1 : ((hmLookup p.pool_tx_map (C.gen_hash tx)).isSome
      || p.removed_tx_ids.contains (C.gen_hash tx)) = true
  · have hadd : add_tx C p tx = some (false, p) := by simp only [add_tx, if_pos hc1]
    rcases Bool.or_eq_true_iff.mp hc1 with hx | hx
    · refine ⟨⟨fun _ => Or.inl hx, fun _ => hadd⟩, ?_, ?_⟩
      · rw [hadd]
        exact ⟨fun he => Option.noConfusion he, fun ⟨he, _, _, _⟩ => by rw [hx] at he; exact Bool.noConfusion he⟩
      · intro q
        rw [hadd]
        refine ⟨fun he => ?_, fun ⟨he, _, _, _, _⟩ => by rw [hx] at he; exact Bool.noConfusion he⟩
        exact absurd (congrArg (fun o => o.map Prod.fst) he) (by simp)
    · refine ⟨⟨fun _ => Or.inr (Or.inl hx), fun _ => hadd⟩, ?_, ?_⟩
      · rw [hadd]
        exact ⟨fun he => Option.noConfusion he, fun ⟨_, he, _, _⟩ => by rw [hx] at he; exact Bool.noConfusion he⟩
      · intro q
        rw [hadd]
        refine ⟨fun he => ?_, fun ⟨_, he, _, _, _⟩ => by rw [hx] at he; exact Bool.noConfusion he⟩
        exact absurd (congrArg (fun o => o.map Prod.fst) he) (by simp)
  · have hc1' := hc1
    rw [Bool.or_eq_true_iff] at hc1'
    push_neg at hc1'
    obtain ⟨hm, hr⟩ : (hmLookup p.pool_tx_map (C.gen_hash tx)).isSome = false ∧
        p.removed_tx_ids.contains (C.gen_hash tx) = false := by
      constructor
      · cases hmm : (hmLookup p.pool_tx_map (C.gen_hash tx)).isSome
        · rfl
        · exact absurd hmm hc1'.1
      · cases hrr : p.removed_tx_ids.contains (C.gen_hash tx)
        · rfl
        · exact absurd hrr hc1'.2
    by_cases hc2 : MAX_TX_POOL ≤ p.pool_tx_ids.length
    · have hadd : add_tx C p tx = some (false, p) := by
        simp only [add_tx, if_neg hc1, if_pos hc2]
      refine ⟨⟨fun _ => Or.inr (Or.inr (Or.inl hc2)), fun _ => hadd⟩, ?_, ?_⟩
      · rw [hadd]
        exact ⟨fun he => Option.noConfusion he, fun ⟨_, _, he, _⟩ => absurd hc2 (by omega)⟩
      · intro q
        rw [hadd]
        refine ⟨fun he => ?_, fun ⟨_, _, he, _, _⟩ => absurd hc2 (by omega)⟩
        exact absurd (congrArg (fun o => o.map Prod.fst) he) (by simp)
    · have hlen : p.pool_tx_ids.length < MAX_TX_POOL := by omega
      cases hv : verify_sig C tx with
      | none =>
        have hadd : add_tx C p tx = none := by
          simp only [add_tx, if_neg hc1, if_neg hc2, hv]
        refine ⟨?_, ?_, ?_⟩
        · rw [hadd]
          refine ⟨fun he => Option.noConfusion he, fun hor => ?_⟩
          rcases hor with he | he | he | he
          · rw [hm] at he; exact Bool.noConfusion he
          · rw [hr] at he; exact Bool.noConfusion he
          · exact absurd he (by omega)
          · exact Option.noConfusion he
        · rw [hadd]
          exact ⟨fun _ => ⟨hm, hr, hlen, rfl⟩, fun _ => rfl⟩
        · intro q
          rw [hadd]
          exact ⟨fun he => Option.noConfusion he, fun ⟨_, _, _, he, _⟩ => Option.noConfusion he⟩
      | some bv =>
        cases bv with
        | false =>
          have hadd : add_tx C p tx = some (false, p) := by
            simp only [add_tx, if_neg hc1, if_neg hc2, hv]
          refine ⟨⟨fun _ => Or.inr (Or.inr (Or.inr rfl)), fun _ => hadd⟩, ?_, ?_⟩
          · rw [hadd]
            exact ⟨fun he => Option.noConfusion he, fun ⟨_, _, _, he⟩ => Option.noConfusion he⟩
          · intro q
            rw [hadd]
            refine ⟨fun he => ?_, fun ⟨_, _, _, he, _⟩ =>
              Bool.noConfusion (Option.some.inj he)⟩
            exact absurd (congrArg (fun o => o.map Prod.fst) he) (by simp)
        | true =>
          have hadd : add_tx C p tx =
              some (true, { p with pool_tx_ids := p.pool_tx_ids ++ [C.gen_hash tx]
                                   pool_tx_map := hmInsert p.pool_tx_map (C.gen_hash tx) tx }) := by
            simp only [add_tx, if_neg hc1, if_neg hc2, hv]
          refine ⟨?_, ?_, ?_⟩
          · rw [hadd]
            refine ⟨fun he => ?_, fun hor => ?_⟩
            · exact absurd (congrArg (fun o => o.map Prod.fst) he) (by simp)
            · rcases hor with he | he | he | he
              · rw [hm] at he; exact Bool.noConfusion he
              · rw [hr] at he; exact Bool.noConfusion he
              · exact absurd he (by omega)
              · exact Bool.noConfusion (Option.some.inj he)
          · rw [hadd]
            exact ⟨fun he => Option.noConfusion he, fun ⟨_, _, _, he⟩ => Option.noConfusion he⟩
          · intro q
            rw [hadd]
            constructor
            · intro he
              have hq := Option.some.inj he
              exact ⟨hm, hr, hlen, rfl, (congrArg Prod.snd hq).symm⟩
            · intro ⟨_, _, _, _, hq⟩
              rw [hq]

/-- Counterexample for C8 as stated: on the fresh pool the short-sender
transaction satisfies none of the four claimed `false` conditions (not
present, not removed, pool not full -- and signature verification does not
run to completion), yet `add_tx` neither returns `false` nor appends: it
panics inside `verify_sig` on the slice `&sender[..64]`. -/
theorem c8_counterexample :
    shortTx.sender.length < 64 ∧
    (hmLookup TxPool.new.pool_tx_map (mockCrypto.gen_hash shortTx)).isSome = false ∧
    TxPool.new.removed_tx_ids.contains (mockCrypto.gen_hash shortTx) = false ∧
    TxPool.new.pool_tx_ids.length < MAX_TX_POOL ∧
    add_tx mockCrypto TxPool.new shortTx = none := by decide

theorem hmLookup_hmRemove_self {α : Type} (m : List (String × α)) (k : String) :
    hmLookup (hmRemove m k) k = none := by
  induction m with
  | nil => rfl
  | cons kv rest ih =>
    obtain ⟨k', v'⟩ := kv
    by_cases h : k' = k
    · simp [hmRemove, List.filter, h] at ih ⊢
      exact ih
    · simp only [hmRemove, List.filter, decide_not] at ih ⊢
      simp [h, hmLookup, ih]

theorem hmLookup_hmRemove_ne {α : Type} (m : List (String × α)) (k j : String)
    (h : j ≠ k) : hmLookup (hmRemove m k) j = hmLookup m j := by
  induction m with
  | nil => rfl
  | cons kv rest ih =>
    obtain ⟨k', v'⟩ := kv
    simp only [hmRemove, List.filter_cons] at ih ⊢
    by_cases h1 : k' = k
    · rw [if_neg (by simp [h1])]
      rw [ih]
      simp only [hmLookup]
      rw [if_neg (fun h2 : k' = j => h (h2.symm.trans h1))]
    · rw [if_pos (by simp [h1])]
      simp only [hmLookup]
      by_cases h2 : k' = j
      · rw [if_pos h2, if_pos h2]
      · rw [if_neg h2, if_neg h2]
        exact ih

theorem mem_hsInsert_self (s : List String) (x : String) : x ∈ hsInsert s x := by
  unfold hsInsert
  split
  next h => exact h
  next => simp

theorem mem_hsInsert_mono (s : List String) (x j : String) (h : j ∈ s) :
    j ∈ hsInsert s x := by
  unfold hsInsert
  split
  next => exact h
  next => simp [h]

theorem not_mem_filter_ne (l : List String) (id : String) :
    id ∉ l.filter (fun i => i ≠ id) := by
  intro h
  have := List.of_mem_filter h
  simp at this

theorem del_tx_gone (p : TxPool) (id : String) (hcons : poolConsistent p = true) :
    TxGone (del_tx p id) id := by
  cases hl : hmLookup p.pool_tx_map id with
  | some tx0 =>
    simp only [del_tx, hl]
    exact ⟨mem_hsInsert_self _ _, hmLookup_hmRemove_self _ _, not_mem_filter_ne _ _⟩
  | none =>
    simp only [del_tx, hl]
    refine ⟨mem_hsInsert_self _ _, hl, fun hmem => ?_⟩
    have hx := (List.all_eq_true.mp hcons) id hmem
    rw [hl] at hx
    exact Bool.noConfusion hx

theorem del_tx_keeps_gone (p : TxPool) (id j : String) (h : TxGone p j) :
    TxGone (del_tx p id) j := by
  obtain ⟨h1, h2, h3⟩ := h
  cases hl : hmLookup p.pool_tx_map id with
  | some tx0 =>
    simp only [del_tx, hl]
    refine ⟨mem_hsInsert_mono _ _ _ h1, ?_, ?_⟩
    · by_cases hj : j = id
      · subst hj; exact hmLookup_hmRemove_self _ _
      · rw [hmLookup_hmRemove_ne _ _ _ hj]; exact h2
    · intro hmem
      exact h3 (List.mem_of_mem_filter hmem)
  | none =>
    simp only [del_tx, hl]
    exact ⟨mem_hsInsert_mono _ _ _ h1, h2, h3⟩

theorem del_tx_consistent (p : TxPool) (id : String) (h : poolConsistent p = true) :
    poolConsistent (del_tx p id) = true := by
  cases hl : hmLookup p.pool_tx_map id with
  | some tx0 =>
    simp only [del_tx, hl, poolConsistent]
    rw [List.all_eq_true]
    intro x hx
    have hxids := List.mem_of_mem_filter hx
    have hxne : x ≠ id := by
      have := List.of_mem_filter hx
      simpa using this
    rw [hmLookup_hmRemove_ne _ _ _ hxne]
    exact (List.all_eq_true.mp h) x hxids
  | none =>
    simp only [del_tx, hl, poolConsistent]
    exact h

theorem foldl_del_txs (C : Crypto) : ∀ (txs : List Transaction) (p : TxPool),
    poolConsistent p = true →
    poolConsistent (txs.foldl (fun a tx => del_tx a (C.gen_hash tx)) p) = true ∧
    (∀ tx ∈ txs, TxGone (txs.foldl (fun a tx => del_tx a (C.gen_hash tx)) p) (C.gen_hash tx)) ∧
    (∀ j, TxGone p j → TxGone (txs.foldl (fun a tx => del_tx a (C.gen_hash tx)) p) j) := by
  intro txs
  induction txs with
  | nil => exact fun p h => ⟨h, by simp, fun j hj => hj⟩
  | cons tx rest ih =>
    intro p h
    have hc1 : poolConsistent (del_tx p (C.gen_hash tx)) = true := del_tx_consistent p _ h
    obtain ⟨ic, ig, ikeep⟩ := ih (del_tx p (C.gen_hash tx)) hc1
    refine ⟨ic, ?_, ?_⟩
    · intro tx2 htx2
      rcases List.mem_cons.mp htx2 with hh | hh
      · subst hh
        exact ikeep _ (del_tx_gone p _ h)
      · exact ig tx2 hh
    · intro j hj
      exact ikeep j (del_tx_keeps_gone p _ j hj)

theorem foldl_del_blocks (C : Crypto) : ∀ (bs : List BlockNode) (p : TxPool),
    poolConsistent p = true →
    poolConsistent (bs.foldl (fun acc blk => blk.transactions_block.transactions.foldl
      (fun a tx => del_tx a (C.gen_hash tx)) acc) p) = true ∧
    (∀ b ∈ bs, ∀ tx ∈ b.transactions_block.transactions,
      TxGone (bs.foldl (fun acc blk => blk.transactions_block.transactions.foldl
        (fun a tx => del_tx a (C.gen_hash tx)) acc) p) (C.gen_hash tx)) ∧
    (∀ j, TxGone p j → TxGone (bs.foldl (fun acc blk => blk.transactions_block.transactions.foldl
      (fun a tx => del_tx a (C.gen_hash tx)) acc) p) j) := by
  intro bs
  induction bs with
  | nil => exact fun p h => ⟨h, by simp, fun j hj => hj⟩
  | cons b rest ih =>
    intro p h
    obtain ⟨bc, bg, bkeep⟩ := foldl_del_txs C b.transactions_block.transactions p h
    obtain ⟨ic, ig, ikeep⟩ := ih _ bc
    refine ⟨ic, ?_, ?_⟩
    · intro b2 hb2 tx htx
      rcases List.mem_cons.mp hb2 with hh | hh
      · subst hh
        exact ikeep _ (bg tx htx)
      · exact ig b2 hh tx htx
    · intro j hj
      exact ikeep j (bkeep j hj)

/-- Claim C10 (confirmed): `remove_txs_from_finalized_blocks` panics on the
empty list (the `last().unwrap()`), and on every non-empty block list it
deletes every transaction of every provided block from the pool, records all
their TxIds in `removed_tx_ids`, and sets `last_finalized_block_id` to the
id of the last block of the list. -/
theorem c10_remove_txs (C : Crypto) (p : TxPool) (h : poolConsistent p = true) :
    remove_txs_from_finalized_blocks C p [] = none ∧
    ∀ bs : List BlockNode, bs ≠ [] →
      ∃ p2, remove_txs_from_finalized_blocks C p bs = some p2 ∧
        (∀ b ∈ bs, ∀ tx ∈ b.transactions_block.transactions, TxGone p2 (C.gen_hash tx)) ∧
        ∃ lb, bs.getLast? = some lb ∧ p2.last_finalized_block_id = lb.header.block_id := by
  refine ⟨rfl, fun bs hne => ?_⟩
  obtain ⟨lb, hlb⟩ : ∃ lb, bs.getLast? = some lb := by
    cases bs with
    | nil => exact absurd rfl hne
    | cons a as =>
      cases hx : (a :: as).getLast? with
      | none => exact absurd hx (by simp)
      | some y => exact ⟨y, rfl⟩
  refine ⟨{ bs.foldl (fun acc blk => blk.transactions_block.transactions.foldl
      (fun a tx => del_tx a (C.gen_hash tx)) acc) p with
      last_finalized_block_id := lb.header.block_id }, ?_, ?_, lb, hlb, rfl⟩
  · simp only [remove_txs_from_finalized_blocks, hlb]
  · intro b hb tx htx
    exact (foldl_del_blocks C bs p h).2.1 b hb tx htx

/-- Witness for C10: the fresh pool and the one-block list `[genesis]`. -/
theorem c10_witness :
    remove_txs_from_finalized_blocks mockCrypto TxPool.new [] = none ∧
    (∃ p2, remove_txs_from_finalized_blocks mockCrypto TxPool.new [genesis_block] = some p2 ∧
      (∀ b ∈ [genesis_block], ∀ tx ∈ b.transactions_block.transactions,
        TxGone p2 (mockCrypto.gen_hash tx)) ∧
      ∃ lb, [genesis_block].getLast? = some lb ∧
        p2.last_finalized_block_id = lb.header.block_id) :=
  ⟨(c10_remove_txs mockCrypto TxPool.new (by decide)).1,
   (c10_remove_txs mockCrypto TxPool.new (by decide)).2 [genesis_block] (by decide)⟩
